import Mathlib

/-!
Verification of the PTY session manager of agents-ui
(src/src-tauri/src/pty.rs and src/src-tauri/src/recording.rs),
as a shallow embedding in Lean.

Conventions used throughout:
* Rust byte slices are `List Nat` (each element a byte value < 256 in all
  reachable uses; out-of-range values simply fall into the invalid branches
  of the decoders).
* Rust `String`/`str` values are Lean `String`s (both are sequences of
  Unicode scalar values).
* `std::time::Instant` is modelled by a `Nat` timestamp in milliseconds on a
  monotone clock supplied by the caller; `elapsed()` is subtraction.
* The filesystem and environment are oracles passed in as functions
  (`isDir : String → Bool`) or optional values (`home : Option String`).
* Fallible Rust functions returning `Result<T, String>` become
  `Except String T`.  The embedding is sequential, so the
  "state poisoned" mutex-poisoning error paths cannot fire and are not
  modelled.
-/

set_option maxRecDepth 16000
set_option maxHeartbeats 1000000
set_option linter.unnecessarySeqFocus false

namespace AgentsUI

/-! ### Decimal rendering of naturals

Rust's `format!("{n}")` prints `n` in decimal with no leading zeros.
`decDigits` computes the little-endian decimal digit list with a
structurally recursive (fuel-based) definition so that it evaluates inside
the kernel; it is proved equal to Mathlib's `Nat.digits 10`. -/

/-- Fuel-driven little-endian decimal digits; `fuel ≥ n` is always enough. -/
def decDigitsF : Nat → Nat → List Nat
  | _, 0 => []
  | 0, _ + 1 => []
  | f + 1, n + 1 => (n + 1) % 10 :: decDigitsF f ((n + 1) / 10)

/-- Little-endian decimal digits of `n`. -/
def decDigits (n : Nat) : List Nat := decDigitsF n n

theorem decDigitsF_eq_digits (f n : Nat) (h : n ≤ f) :
    decDigitsF f n = Nat.digits 10 n := by
  induction f generalizing n with
  | zero =>
    interval_cases n
    simp [decDigitsF]
  | succ f ih =>
    match n with
    | 0 => simp [decDigitsF]
    | n + 1 =>
      rw [decDigitsF, Nat.digits_def' (by norm_num) (Nat.succ_pos n),
        ih ((n + 1) / 10) (by omega)]

theorem decDigits_eq_digits (n : Nat) : decDigits n = Nat.digits 10 n :=
  decDigitsF_eq_digits n n (Nat.le_refl n)

/-- Decimal rendering of a natural number, as Rust's `format!("{n}")`
produces it: most-significant digit first, `"0"` for zero. -/
def natRepr (n : Nat) : String :=
  String.mk (if n = 0 then ['0'] else ((decDigits n).map Nat.digitChar).reverse)

theorem digitChar_inj_lt_ten {a b : Nat} (ha : a < 10) (hb : b < 10)
    (h : Nat.digitChar a = Nat.digitChar b) : a = b := by
  interval_cases a <;> interval_cases b <;> simp_all [Nat.digitChar]

theorem map_digitChar_inj : ∀ {l1 l2 : List Nat},
    (∀ x ∈ l1, x < 10) → (∀ x ∈ l2, x < 10) →
    l1.map Nat.digitChar = l2.map Nat.digitChar → l1 = l2
  | [], [], _, _, _ => rfl
  | a :: l1, b :: l2, h1, h2, h => by
    simp only [List.map_cons, List.cons.injEq] at h
    have ha : a = b := digitChar_inj_lt_ten (h1 a (List.mem_cons_self a l1))
      (h2 b (List.mem_cons_self b l2)) h.1
    have := map_digitChar_inj (fun x hx => h1 x (List.mem_cons_of_mem a hx))
      (fun x hx => h2 x (List.mem_cons_of_mem b hx)) h.2
    rw [ha, this]

theorem natRepr_inj {m n : Nat} (h : natRepr m = natRepr n) : m = n := by
  have hd : (if m = 0 then ['0'] else ((decDigits m).map Nat.digitChar).reverse)
      = (if n = 0 then ['0'] else ((decDigits n).map Nat.digitChar).reverse) := by
    have := congrArg String.data h
    simpa [natRepr] using this
  by_cases hm : m = 0 <;> by_cases hn : n = 0
  · omega
  · exfalso
    simp only [hm, if_pos rfl, if_neg hn] at hd
    have h1 : (decDigits n).map Nat.digitChar = ['0'] := by
      have := congrArg List.reverse hd
      simpa using this.symm
    have h2 : Nat.digits 10 n = [0] := by
      rw [decDigits_eq_digits] at h1
      have hlen : (Nat.digits 10 n).length = 1 := by
        have := congrArg List.length h1
        simpa using this
      obtain ⟨d, hx⟩ := List.length_eq_one.mp hlen
      rw [hx] at h1
      simp only [List.map_cons, List.map_nil, List.cons.injEq] at h1
      have hdlt : d < 10 :=
        Nat.digits_lt_base (by norm_num) (hx ▸ List.mem_cons_self d [])
      have : d = 0 := digitChar_inj_lt_ten hdlt (by norm_num) h1.1
      rw [hx, this]
    have := Nat.ofDigits_digits 10 n
    rw [h2] at this
    simp [Nat.ofDigits] at this
    omega
  · exfalso
    simp only [hn, if_pos rfl, if_neg hm] at hd
    have h1 : (decDigits m).map Nat.digitChar = ['0'] := by
      have := congrArg List.reverse hd
      simpa using this
    have h2 : Nat.digits 10 m = [0] := by
      rw [decDigits_eq_digits] at h1
      have hlen : (Nat.digits 10 m).length = 1 := by
        have := congrArg List.length h1
        simpa using this
      obtain ⟨d, hx⟩ := List.length_eq_one.mp hlen
      rw [hx] at h1
      simp only [List.map_cons, List.map_nil, List.cons.injEq] at h1
      have hdlt : d < 10 :=
        Nat.digits_lt_base (by norm_num) (hx ▸ List.mem_cons_self d [])
      have : d = 0 := digitChar_inj_lt_ten hdlt (by norm_num) h1.1
      rw [hx, this]
    have := Nat.ofDigits_digits 10 m
    rw [h2] at this
    simp [Nat.ofDigits] at this
    omega
  · simp only [if_neg hm, if_neg hn] at hd
    have h1 : (decDigits m).map Nat.digitChar = (decDigits n).map Nat.digitChar := by
      have := congrArg List.reverse hd
      simpa using this
    rw [decDigits_eq_digits, decDigits_eq_digits] at h1
    have h2 : Nat.digits 10 m = Nat.digits 10 n :=
      map_digitChar_inj (fun x hx => Nat.digits_lt_base (by norm_num) hx)
        (fun x hx => Nat.digits_lt_base (by norm_num) hx) h1
    exact Nat.digits.injective 10 h2

/-! ### Rust string trimming

`str::trim` removes leading and trailing characters with the Unicode
`White_Space` property.  `rustIsWhitespace` lists exactly the scalar values
with that property. -/

/-- The Unicode `White_Space` property, as used by Rust's
`char::is_whitespace`. -/
def rustIsWhitespace (c : Char) : Bool :=
  let n := c.toNat
  (0x9 ≤ n && n ≤ 0xD) || n = 0x20 || n = 0x85 || n = 0xA0 || n = 0x1680 ||
  (0x2000 ≤ n && n ≤ 0x200A) || n = 0x2028 || n = 0x2029 || n = 0x202F ||
  n = 0x205F || n = 0x3000

/-- Rust `str::trim` on the character list of a string. -/
def rustTrimChars (l : List Char) : List Char :=
  ((l.dropWhile rustIsWhitespace).reverse.dropWhile rustIsWhitespace).reverse

/-- Rust `str::trim`. -/
def rustTrim (s : String) : String :=
  String.mk (rustTrimChars s.data)

/-! ### Recording id sanitization (src/src-tauri/src/recording.rs, sanitize_recording_id) -/

/-- Rust `char::is_ascii_alphanumeric`: `0-9`, `A-Z` or `a-z`. -/
def isAsciiAlphanumeric (c : Char) : Bool :=
  let n := c.toNat
  (0x30 ≤ n && n ≤ 0x39) || (0x41 ≤ n && n ≤ 0x5A) || (0x61 ≤ n && n ≤ 0x7A)

/-- Whether a character passes the `ok` test of `sanitize_recording_id`:
ASCII alphanumeric, `-` or `_`. -/
def idCharOk (c : Char) : Bool :=
  isAsciiAlphanumeric c || c.toNat = 0x2D || c.toNat = 0x5F

/-- One character of the sanitization loop: kept if `idCharOk`, otherwise
replaced by `_`. -/
def sanitizeChar (c : Char) : Char :=
  if idCharOk c then c else '_'

/-- `sanitize_recording_id` from src/src-tauri/src/recording.rs: trim, map
the first 120 characters through `sanitizeChar`, and fall back to
`"recording"` when the trimmed input (and hence the output) is empty. -/
def sanitize_recording_id (input : String) : String :=
  let trimmed := rustTrim input
  if trimmed = "" then "recording"
  else
    let out := String.mk ((trimmed.data.take 120).map sanitizeChar)
    if out = "" then "recording" else out

/-! ### Session name de-duplication (src/src-tauri/src/pty.rs, unique_name)

The Rust function collects the set of names of currently stored sessions
and, when the requested base name is taken, probes `base-2`, `base-3`, …
until a free candidate is found.  The probe loop terminates because the
stored-name set is finite and the candidates are pairwise distinct; the
embedding makes that explicit with a fuel argument of `taken.length + 1`,
whose exhaustion branch is proved unreachable below. -/

/-- The candidate `format!("{base}-{n}")`. -/
def nameCand (base : String) (n : Nat) : String :=
  base ++ "-" ++ natRepr n

/-- The probe loop of `unique_name`, starting at candidate index `n`.  The
fuel-exhaustion branch returns the current candidate unchecked; with fuel
`taken.length + 1` it is never reached (see `probeName_not_mem`). -/
def probeName (taken : List String) (base : String) : Nat → Nat → String
  | n, 0 => nameCand base n
  | n, fuel + 1 =>
    let candidate := nameCand base n
    if candidate ∈ taken then probeName taken base (n + 1) fuel else candidate

/-- `unique_name` from src/src-tauri/src/pty.rs: the base name itself when
unused, otherwise the first free candidate `base-2`, `base-3`, …. -/
def unique_name (taken : List String) (base : String) : String :=
  if base ∈ taken then probeName taken base 2 (taken.length + 1)
  else base

theorem nameCand_inj (base : String) {m n : Nat}
    (h : nameCand base m = nameCand base n) : m = n := by
  apply natRepr_inj
  have hd := congrArg String.data h
  simp only [nameCand, String.data_append] at hd
  have := List.append_cancel_left hd
  exact String.ext this

/-- If the probe runs out of fuel, every candidate it inspected was taken. -/
theorem probeName_fuel_exhausted (taken : List String) (base : String) :
    ∀ fuel n, probeName taken base n fuel ∈ taken →
      ∀ k, k < fuel → nameCand base (n + k) ∈ taken := by
  intro fuel
  induction fuel with
  | zero => intro n _ k hk; omega
  | succ fuel ih =>
    intro n hmem k hk
    by_cases hc : nameCand base n ∈ taken
    · match k with
      | 0 => simpa using hc
      | k + 1 =>
        have := ih (n + 1) (by simpa [probeName, hc] using hmem) k (by omega)
        simpa [Nat.add_assoc, Nat.add_comm 1 k] using this
    · exfalso
      simp only [probeName, if_neg hc] at hmem
      exact hc hmem

/-- With fuel `taken.length + 1` the probe result is never a taken name. -/
theorem probeName_not_mem (taken : List String) (base : String) (n : Nat) :
    probeName taken base n (taken.length + 1) ∉ taken := by
  intro hmem
  have hall := probeName_fuel_exhausted taken base (taken.length + 1) n hmem
  -- the `taken.length + 1` distinct candidates are all in `taken`
  set L : List String := (List.range (taken.length + 1)).map (fun k => nameCand base (n + k)) with hL
  have hsub : L ⊆ taken := by
    intro s hs
    simp only [hL, List.mem_map, List.mem_range] at hs
    obtain ⟨k, hk, rfl⟩ := hs
    exact hall k hk
  have hnodup : L.Nodup := by
    apply List.Nodup.map ?_ (List.nodup_range _)
    intro a b hab
    have := nameCand_inj base hab
    omega
  have h1 : L.toFinset.card = L.length := List.toFinset_card_of_nodup hnodup
  have h2 : L.toFinset ⊆ taken.toFinset := by
    intro x hx
    rw [List.mem_toFinset] at hx ⊢
    exact hsub hx
  have h3 := Finset.card_le_card h2
  have h4 := List.toFinset_card_le taken
  simp only [h1, hL, List.length_map, List.length_range] at h3
  omega

theorem unique_name_not_mem (taken : List String) (base : String) :
    unique_name taken base ∉ taken := by
  unfold unique_name
  by_cases hb : base ∈ taken
  · simpa [hb] using probeName_not_mem taken base 2
  · simp [hb]

/-- First-fit: the probe returns the first free candidate at or above its
starting index, provided it has enough fuel to reach one. -/
theorem probeName_first_fit (taken : List String) (base : String) :
    ∀ fuel n, probeName taken base n fuel ∉ taken →
      ∃ j, n ≤ j ∧ probeName taken base n fuel = nameCand base j ∧
        nameCand base j ∉ taken ∧
        ∀ m, n ≤ m → m < j → nameCand base m ∈ taken := by
  intro fuel
  induction fuel with
  | zero =>
    intro n hfree
    exact ⟨n, Nat.le_refl n, rfl, hfree, fun m h1 h2 => absurd (Nat.lt_of_le_of_lt h1 h2) (Nat.lt_irrefl n)⟩
  | succ fuel ih =>
    intro n hfree
    by_cases hc : nameCand base n ∈ taken
    · have hrec : probeName taken base (n + 1) fuel ∉ taken := by
        simpa [probeName, hc] using hfree
      obtain ⟨j, hj1, hj2, hj3, hj4⟩ := ih (n + 1) hrec
      refine ⟨j, by omega, by simpa [probeName, hc] using hj2, hj3, ?_⟩
      intro m hm1 hm2
      rcases Nat.eq_or_lt_of_le hm1 with h | h
      · simpa [h] using hc
      · exact hj4 m h hm2
    · refine ⟨n, Nat.le_refl n, by simp [probeName, hc], hc,
        fun m h1 h2 => absurd (Nat.lt_of_le_of_lt h1 h2) (Nat.lt_irrefl n)⟩

/-! ### The session registry and its lifecycle operations
(src/src-tauri/src/pty.rs)

`AppStateInner.sessions` is a `Mutex<HashMap<String, PtySession>>`; ids come
from the atomic counter `next_id`.  The registry is modelled as an
association list with the id as key, which is what a `HashMap` is
observationally (ids handed out by the counter are distinct, and all access
goes through single lookups/inserts/removals).  The OS-level fields of
`PtySession` (master, writer, child) and the spawn plumbing are external
resources; the fields relevant to the claims (name, recording) are
modelled. -/

/-- The recording attached to a session (struct SessionRecording).  The
`BufWriter<File>` is modelled by the list of serialized lines handed to it;
`started_at` and `last_flush` are millisecond timestamps of the monotone
clock. -/
structure SessionRecording where
  started_at : Nat
  last_flush : Nat
  unflushed_bytes : Nat
  lines : List (List Nat)
deriving DecidableEq, Repr

/-- The per-session registry entry (struct PtySession), restricted to the
fields the claims are about. -/
structure PtySession where
  name : String
  recording : Option SessionRecording
deriving DecidableEq, Repr

/-- The session registry (AppStateInner). -/
structure AppState where
  next_id : Nat
  sessions : List (String × PtySession)
deriving DecidableEq, Repr

/-- The empty initial state (`AppState::default()`). -/
def AppState.empty : AppState := ⟨0, []⟩

/-- HashMap lookup. -/
def lookupSession (st : AppState) (id : String) : Option PtySession :=
  (st.sessions.find? (fun p => p.1 = id)).map (fun p => p.2)

/-- The list of live session names (the name set built by `unique_name`'s
caller). -/
def sessionNames (st : AppState) : List String :=
  st.sessions.map (fun p => p.2.name)

/-! ### JSON serialization of recording lines
(serde_json::to_string of RecordingLineV1::Input)

`RecordingLineV1` is an internally tagged enum (`tag = "type"`, camelCase),
so an input event serializes as the bytes of
`{"type":"input","t":<t>,"data":"<escaped data>"}`.
serde_json escapes `"`, `\` and control bytes below 0x20 (with the short
forms for backspace, tab, newline, form feed and carriage return and
`\u00XX` otherwise); all other bytes of the valid-UTF-8 payload pass
through unchanged. -/

/-- Lowercase hex digit byte. -/
def hexDigitByte (d : Nat) : Nat :=
  if d < 10 then 0x30 + d else 0x57 + d

/-- serde_json's escaping of one byte of a JSON string body. -/
def jsonEscapeByte (b : Nat) : List Nat :=
  if b = 0x22 then [0x5C, 0x22]
  else if b = 0x5C then [0x5C, 0x5C]
  else if b = 0x08 then [0x5C, 0x62]
  else if b = 0x09 then [0x5C, 0x74]
  else if b = 0x0A then [0x5C, 0x6E]
  else if b = 0x0C then [0x5C, 0x66]
  else if b = 0x0D then [0x5C, 0x72]
  else if b < 0x20 then [0x5C, 0x75, 0x30, 0x30, hexDigitByte (b / 16), hexDigitByte (b % 16)]
  else [b]

/-- serde_json's escaping of a JSON string body. -/
def jsonEscape (data : List Nat) : List Nat :=
  (data.map jsonEscapeByte).flatten

/-- The UTF-8 bytes of a string of ASCII characters (used for the fixed
JSON syntax and the decimal timestamp, all of which are ASCII). -/
def asciiBytes (s : String) : List Nat :=
  s.data.map Char.toNat

/-- serde_json's rendering of an input event of RecordingLineV1: the
object opener with the tag, the decimal timestamp, and the escaped data. -/
def serializeInputLine (t : Nat) (data : List Nat) : List Nat :=
  asciiBytes "\x7b\"type\":\"input\",\"t\":" ++ asciiBytes (natRepr t) ++
    asciiBytes ",\"data\":\"" ++ jsonEscape data ++ asciiBytes "\"\x7d"

/-! ### The recorder (src/src-tauri/src/pty.rs, record_user_input)

`record_user_input` serializes the event, appends it (plus the trailing
newline) to the buffered writer, bumps `unflushed_bytes`, and flushes when
the data contains a newline or carriage return, when `unflushed_bytes` has
reached 16 KiB, or when at least 1500 ms have passed since the last flush.
`now` is the current value of the monotone millisecond clock; the returned
Bool reports whether the flush branch was taken. -/

def record_user_input (now : Nat) (rec : SessionRecording) (data : List Nat) :
    SessionRecording × Bool :=
  let t := now - rec.started_at
  let json := serializeInputLine t data
  let lines := rec.lines ++ [json]
  let unflushed := rec.unflushed_bytes + json.length + 1
  let should_flush : Bool :=
    data.contains 0x0A || data.contains 0x0D ||
    decide (unflushed ≥ 16 * 1024) || decide (now - rec.last_flush ≥ 1500)
  if should_flush then
    ({ rec with lines := lines, last_flush := now, unflushed_bytes := 0 }, true)
  else
    ({ rec with lines := lines, unflushed_bytes := unflushed }, false)

/-- A sequence of recorder calls, each supplying the clock value and the
data; returns the final recording state and whether any call flushed. -/
def runRecord (rec : SessionRecording) (calls : List (Nat × List Nat)) :
    SessionRecording × Bool :=
  calls.foldl
    (fun acc c =>
      let r := record_user_input c.1 acc.1 c.2
      (r.1, acc.2 || r.2))
    (rec, false)

/-! ### Lifecycle operations -/

/-- The registry-facing part of `create_session`: derive the base name
(`"shell"` for an empty trimmed command, `"agent"` otherwise, `"session"`
when an explicit name trims to empty), de-duplicate it against the live
names, take a fresh id from the counter and insert the new session.
Returns the new state, the id and the final name. -/
def create_session (st : AppState) (name : Option String) (isShell : Bool) :
    AppState × String × String :=
  let id := natRepr st.next_id
  let base_name := name.getD (if isShell then "shell" else "agent")
  let base_trimmed := rustTrim base_name
  let base_trimmed := if base_trimmed = "" then "session" else base_trimmed
  let final_name := unique_name (sessionNames st) base_trimmed
  ({ next_id := st.next_id + 1,
     sessions := st.sessions ++ [(id, { name := final_name, recording := none })] },
   id, final_name)

/-- `close_session`: remove the session from the registry; a missing id is
a no-op.  (Killing and reaping the child process are external effects.)
The only error path of the Rust function is mutex poisoning, which cannot
occur in this sequential embedding, so the result is always `ok`. -/
def close_session (st : AppState) (id : String) : Except String AppState :=
  .ok { st with sessions := st.sessions.filter (fun p => ¬ p.1 = id) }

/-- `list_sessions`, restricted to the modelled fields (the Rust function
also reports the shown command and a constant `cwd: None`). -/
def list_sessions (st : AppState) : List (String × String) :=
  st.sessions.map (fun p => (p.1, p.2.name))

/-- Update the session stored under `id`. -/
def updateSession (st : AppState) (id : String) (s : PtySession) : AppState :=
  { st with sessions := st.sessions.map (fun p => if p.1 = id then (id, s) else p) }

/-- `write_to_session`: look up the session, write the bytes to the PTY
writer, and, only for `source == Some("user")` with an active recording,
record the event.  A failing record call (serialization or I/O, modelled by
the `recFail` oracle) detaches the recording and is absorbed; a failing PTY
write (`ptyFail` oracle) is an error.  The PTY writer itself is an external
resource, so the write has no modelled effect beyond its possible failure. -/
def write_to_session (ptyFail recFail : Bool) (now : Nat) (st : AppState)
    (id : String) (data : List Nat) (source : Option String) :
    Except String AppState :=
  match lookupSession st id with
  | none => .error "unknown session"
  | some s =>
    if ptyFail then .error "write failed"
    else
      let is_user := source = some "user"
      if is_user then
        match s.recording with
        | some rec =>
          if recFail then
            .ok (updateSession st id { s with recording := none })
          else
            .ok (updateSession st id
              { s with recording := some (record_user_input now rec data).1 })
        | none => .ok st
      else .ok st

/-- The operations of a create/close call sequence (claim C2). -/
inductive SessionOp where
  | create (name : Option String) (isShell : Bool)
  | close (id : String)

/-- Apply one operation to the registry. -/
def applyOp (st : AppState) : SessionOp → AppState
  | .create name isShell => (create_session st name isShell).1
  | .close id =>
    match close_session st id with
    | .ok st' => st'
    | .error _ => st

/-- Run a call sequence from the empty registry. -/
def runOps (ops : List SessionOp) : AppState :=
  ops.foldl applyOp AppState.empty

/-! ### Working-directory resolution (src/src-tauri/src/pty.rs, create_session lines 352-365)

The Rust code is
`cwd.map(trim).filter(nonempty).filter(|s| Path::new(s).is_dir())
   .or_else(|| env HOME, filtered by is_dir)`;
the filesystem test `Path::new(s).is_dir()` is the oracle `isDir` (note it
accepts any path that names an existing directory, relative paths
included), and the `HOME` environment variable is the oracle `home`. -/

def resolveCwd (isDir : String → Bool) (home : Option String)
    (cwd : Option String) : Option String :=
  let fromRequest : Option String :=
    match cwd with
    | some s =>
      let t := rustTrim s
      if t = "" then none
      else if isDir t then some t else none
    | none => none
  match fromRequest with
  | some d => some d
  | none =>
    match home with
    | some h => if isDir h then some h else none
    | none => none

/-- Unix `Path::is_absolute`: the path starts with `/`. -/
def isAbsolutePath (s : String) : Bool :=
  match s.data with
  | [] => false
  | c :: _ => c = '/'

/-! ### Streaming UTF-8 decoding (src/src-tauri/src/pty.rs, decode_utf8_stream)

`decode_utf8_stream` appends the chunk to the carry buffer and then
repeatedly applies `std::str::from_utf8` from the current index: complete
valid text is emitted, an invalid sequence (`error_len() == Some(len)`)
emits one U+FFFD and skips `len` bytes, and an incomplete trailing sequence
(`error_len() == None`) stops the loop so its bytes stay in the carry.

`utf8Step` is `from_utf8`'s verdict on the next byte sequence, exactly as
core's UTF-8 validation computes it: `char cp size` for a complete
well-formed sequence, `invalid len` for an ill-formed sequence whose
maximal subpart has `len` bytes, `incomplete` when the buffer ends in the
middle of a well-formed sequence.  Emitted text is represented as the list
of Unicode scalar values (U+FFFD is 0xFFFD). -/

inductive Utf8Step where
  | char (cp : Nat) (size : Nat)
  | invalid (len : Nat)
  | incomplete
deriving DecidableEq, Repr

/-- The verdict of `std::str::from_utf8` on the front of the buffer.  The
admissible ranges of the continuation bytes (second byte: E0 → A0-BF,
ED → 80-9F, F0 → 90-BF, F4 → 80-8F, otherwise 80-BF) are those of core's
`run_utf8_validation`. -/
def utf8Step : List Nat → Utf8Step
  | [] => .incomplete
  | b0 :: rest =>
    if b0 < 0x80 then .char b0 1
    else if b0 < 0xC2 then .invalid 1
    else if b0 ≤ 0xDF then
      match rest with
      | [] => .incomplete
      | b1 :: _ =>
        if 0x80 ≤ b1 ∧ b1 ≤ 0xBF then .char ((b0 - 0xC0) * 0x40 + (b1 - 0x80)) 2
        else .invalid 1
    else if b0 ≤ 0xEF then
      match rest with
      | [] => .incomplete
      | b1 :: rest1 =>
        if (if b0 = 0xE0 then 0xA0 ≤ b1 ∧ b1 ≤ 0xBF
            else if b0 = 0xED then 0x80 ≤ b1 ∧ b1 ≤ 0x9F
            else 0x80 ≤ b1 ∧ b1 ≤ 0xBF) then
          match rest1 with
          | [] => .incomplete
          | b2 :: _ =>
            if 0x80 ≤ b2 ∧ b2 ≤ 0xBF then
              .char ((b0 - 0xE0) * 0x1000 + (b1 - 0x80) * 0x40 + (b2 - 0x80)) 3
            else .invalid 2
        else .invalid 1
    else if b0 ≤ 0xF4 then
      match rest with
      | [] => .incomplete
      | b1 :: rest1 =>
        if (if b0 = 0xF0 then 0x90 ≤ b1 ∧ b1 ≤ 0xBF
            else if b0 = 0xF4 then 0x80 ≤ b1 ∧ b1 ≤ 0x8F
            else 0x80 ≤ b1 ∧ b1 ≤ 0xBF) then
          match rest1 with
          | [] => .incomplete
          | b2 :: rest2 =>
            if 0x80 ≤ b2 ∧ b2 ≤ 0xBF then
              match rest2 with
              | [] => .incomplete
              | b3 :: _ =>
                if 0x80 ≤ b3 ∧ b3 ≤ 0xBF then
                  .char ((b0 - 0xF0) * 0x40000 + (b1 - 0x80) * 0x1000 +
                    (b2 - 0x80) * 0x40 + (b3 - 0x80)) 4
                else .invalid 3
            else .invalid 2
        else .invalid 1
    else .invalid 1

theorem utf8Step_char_size {bs : List Nat} {cp s : Nat}
    (h : utf8Step bs = .char cp s) : 1 ≤ s ∧ s ≤ bs.length := by
  match bs with
  | [] => simp [utf8Step] at h
  | [b0] =>
    simp only [utf8Step, List.length_cons, List.length_nil] at h ⊢
    split_ifs at h <;> cases h <;> omega
  | [b0, b1] =>
    simp only [utf8Step, List.length_cons, List.length_nil] at h ⊢
    split_ifs at h <;> cases h <;> omega
  | [b0, b1, b2] =>
    simp only [utf8Step, List.length_cons, List.length_nil] at h ⊢
    split_ifs at h <;> cases h <;> omega
  | b0 :: b1 :: b2 :: b3 :: rest =>
    simp only [utf8Step, List.length_cons, List.length_nil] at h ⊢
    split_ifs at h <;> cases h <;> omega

theorem utf8Step_invalid_len {bs : List Nat} {l : Nat}
    (h : utf8Step bs = .invalid l) : 1 ≤ l ∧ l ≤ bs.length := by
  match bs with
  | [] => simp [utf8Step] at h
  | [b0] =>
    simp only [utf8Step, List.length_cons, List.length_nil] at h ⊢
    split_ifs at h <;> cases h <;> omega
  | [b0, b1] =>
    simp only [utf8Step, List.length_cons, List.length_nil] at h ⊢
    split_ifs at h <;> cases h <;> omega
  | [b0, b1, b2] =>
    simp only [utf8Step, List.length_cons, List.length_nil] at h ⊢
    split_ifs at h <;> cases h <;> omega
  | b0 :: b1 :: b2 :: b3 :: rest =>
    simp only [utf8Step, List.length_cons, List.length_nil] at h ⊢
    split_ifs at h <;> cases h <;> omega

/-- A complete sequence's verdict does not change when more bytes arrive. -/
theorem utf8Step_append_char {xs : List Nat} {cp s : Nat} (ys : List Nat)
    (h : utf8Step xs = .char cp s) : utf8Step (xs ++ ys) = .char cp s := by
  match xs with
  | [] => simp [utf8Step] at h
  | [b0] =>
    simp only [utf8Step] at h
    simp only [List.cons_append, List.nil_append, utf8Step]
    split_ifs at h <;> cases h <;> split_ifs <;> first | rfl | (exfalso; omega)
  | [b0, b1] =>
    simp only [utf8Step] at h
    simp only [List.cons_append, List.nil_append, utf8Step]
    split_ifs at h <;> cases h <;> split_ifs <;> first | rfl | (exfalso; omega)
  | [b0, b1, b2] =>
    simp only [utf8Step] at h
    simp only [List.cons_append, List.nil_append, utf8Step]
    split_ifs at h <;> cases h <;> split_ifs <;> first | rfl | (exfalso; omega)
  | b0 :: b1 :: b2 :: b3 :: rest =>
    simp only [utf8Step] at h
    simp only [List.cons_append, List.nil_append, utf8Step]
    split_ifs at h <;> cases h <;> split_ifs <;> first | rfl | (exfalso; omega)

/-- An ill-formed sequence's verdict does not change when more bytes
arrive. -/
theorem utf8Step_append_invalid {xs : List Nat} {l : Nat} (ys : List Nat)
    (h : utf8Step xs = .invalid l) : utf8Step (xs ++ ys) = .invalid l := by
  match xs with
  | [] => simp [utf8Step] at h
  | [b0] =>
    simp only [utf8Step] at h
    simp only [List.cons_append, List.nil_append, utf8Step]
    split_ifs at h <;> cases h <;> split_ifs <;> first | rfl | (exfalso; omega)
  | [b0, b1] =>
    simp only [utf8Step] at h
    simp only [List.cons_append, List.nil_append, utf8Step]
    split_ifs at h <;> cases h <;> split_ifs <;> first | rfl | (exfalso; omega)
  | [b0, b1, b2] =>
    simp only [utf8Step] at h
    simp only [List.cons_append, List.nil_append, utf8Step]
    split_ifs at h <;> cases h <;> split_ifs <;> first | rfl | (exfalso; omega)
  | b0 :: b1 :: b2 :: b3 :: rest =>
    simp only [utf8Step] at h
    simp only [List.cons_append, List.nil_append, utf8Step]
    split_ifs at h <;> cases h <;> split_ifs <;> first | rfl | (exfalso; omega)

/-- An incomplete (valid-so-far) sequence has at most 3 bytes. -/
theorem utf8Step_incomplete_len {bs : List Nat}
    (h : utf8Step bs = .incomplete) : bs.length ≤ 3 := by
  match bs with
  | [] => simp
  | [b0] => simp
  | [b0, b1] => simp
  | [b0, b1, b2] => simp
  | b0 :: b1 :: b2 :: b3 :: rest =>
    exfalso
    simp only [utf8Step] at h
    split_ifs at h <;> simp_all

/-- A complete sequence's verdict is already determined by its own `s`
bytes. -/
theorem utf8Step_take_char {xs : List Nat} {cp s : Nat} (ys : List Nat)
    (h : utf8Step xs = .char cp s) : utf8Step (xs.take s ++ ys) = .char cp s := by
  match xs with
  | [] => simp [utf8Step] at h
  | [b0] =>
    simp only [utf8Step] at h
    split_ifs at h <;> cases h <;>
      simp only [List.take_succ_cons, List.take_zero, List.take_nil,
        List.cons_append, List.nil_append, utf8Step] <;>
      split_ifs <;> first | rfl | (exfalso; omega)
  | [b0, b1] =>
    simp only [utf8Step] at h
    split_ifs at h <;> cases h <;>
      simp only [List.take_succ_cons, List.take_zero, List.take_nil,
        List.cons_append, List.nil_append, utf8Step] <;>
      split_ifs <;> first | rfl | (exfalso; omega)
  | [b0, b1, b2] =>
    simp only [utf8Step] at h
    split_ifs at h <;> cases h <;>
      simp only [List.take_succ_cons, List.take_zero, List.take_nil,
        List.cons_append, List.nil_append, utf8Step] <;>
      split_ifs <;> first | rfl | (exfalso; omega)
  | b0 :: b1 :: b2 :: b3 :: rest =>
    simp only [utf8Step] at h
    split_ifs at h <;> cases h <;>
      simp only [List.take_succ_cons, List.take_zero, List.take_nil,
        List.cons_append, List.nil_append, utf8Step] <;>
      split_ifs <;> first | rfl | (exfalso; omega)

/-- An ill-formed sequence's verdict is already determined by its maximal
subpart together with the one byte that follows it (when one does). -/
theorem utf8Step_take_invalid {xs : List Nat} {l : Nat} (ys : List Nat)
    (h : utf8Step xs = .invalid l) :
    utf8Step (xs.take (l + 1) ++ ys) = .invalid l := by
  match xs with
  | [] => simp [utf8Step] at h
  | [b0] =>
    simp only [utf8Step] at h
    split_ifs at h <;> cases h <;>
      simp only [List.take_succ_cons, List.take_zero, List.take_nil,
        List.cons_append, List.nil_append, utf8Step] <;>
      split_ifs <;> first | rfl | (exfalso; omega)
  | [b0, b1] =>
    simp only [utf8Step] at h
    split_ifs at h <;> cases h <;>
      simp only [List.take_succ_cons, List.take_zero, List.take_nil,
        List.cons_append, List.nil_append, utf8Step] <;>
      split_ifs <;> first | rfl | (exfalso; omega)
  | [b0, b1, b2] =>
    simp only [utf8Step] at h
    split_ifs at h <;> cases h <;>
      simp only [List.take_succ_cons, List.take_zero, List.take_nil,
        List.cons_append, List.nil_append, utf8Step] <;>
      split_ifs <;> first | rfl | (exfalso; omega)
  | b0 :: b1 :: b2 :: b3 :: rest =>
    simp only [utf8Step] at h
    split_ifs at h <;> cases h <;>
      simp only [List.take_succ_cons, List.take_zero, List.take_nil,
        List.cons_append, List.nil_append, utf8Step] <;>
      split_ifs <;> first | rfl | (exfalso; omega)

/-- Standing alone, the maximal subpart of an ill-formed sequence is either
still ill-formed or incomplete. -/
theorem utf8Step_take_invalid_self {xs : List Nat} {l : Nat}
    (h : utf8Step xs = .invalid l) :
    utf8Step (xs.take l) = .invalid l ∨ utf8Step (xs.take l) = .incomplete := by
  match xs with
  | [] => simp [utf8Step] at h
  | [b0] =>
    simp only [utf8Step] at h
    split_ifs at h <;> cases h <;>
      simp only [List.take_succ_cons, List.take_zero, List.take_nil,
        List.cons_append, List.nil_append, utf8Step] <;>
      split_ifs <;> first | exact Or.inl rfl | exact Or.inr rfl | (exfalso; omega)
  | [b0, b1] =>
    simp only [utf8Step] at h
    split_ifs at h <;> cases h <;>
      simp only [List.take_succ_cons, List.take_zero, List.take_nil,
        List.cons_append, List.nil_append, utf8Step] <;>
      split_ifs <;> first | exact Or.inl rfl | exact Or.inr rfl | (exfalso; omega)
  | [b0, b1, b2] =>
    simp only [utf8Step] at h
    split_ifs at h <;> cases h <;>
      simp only [List.take_succ_cons, List.take_zero, List.take_nil,
        List.cons_append, List.nil_append, utf8Step] <;>
      split_ifs <;> first | exact Or.inl rfl | exact Or.inr rfl | (exfalso; omega)
  | b0 :: b1 :: b2 :: b3 :: rest =>
    simp only [utf8Step] at h
    split_ifs at h <;> cases h <;>
      simp only [List.take_succ_cons, List.take_zero, List.take_nil,
        List.cons_append, List.nil_append, utf8Step] <;>
      split_ifs <;> first | exact Or.inl rfl | exact Or.inr rfl | (exfalso; omega)

/-- The decode loop of `decode_utf8_stream` over the whole buffer: emit
complete characters, emit one U+FFFD per ill-formed sequence and skip its
bytes (the `.min(carry.len())` clamp of the source is the `min` here), and
stop at a trailing incomplete sequence, which remains as the new carry.
Returns (emitted scalar values, remaining carry). -/
def decodeLoop (bs : List Nat) : List Nat × List Nat :=
  match hbs : bs with
  | [] => ([], [])
  | _ :: _ =>
    match hs : utf8Step bs with
    | .char cp s =>
      let r := decodeLoop (bs.drop s)
      (cp :: r.1, r.2)
    | .invalid l =>
      let r := decodeLoop (bs.drop (min l bs.length))
      (0xFFFD :: r.1, r.2)
    | .incomplete => ([], bs)
termination_by bs.length
decreasing_by
  · have := utf8Step_char_size hs
    simp only [List.length_drop]
    subst hbs
    simp only [List.length_cons] at this ⊢
    omega
  · have := utf8Step_invalid_len hs
    simp only [List.length_drop]
    subst hbs
    simp only [List.length_cons] at this ⊢
    omega

/-- `decode_utf8_stream` from src/src-tauri/src/pty.rs: an empty chunk
emits nothing and leaves the carry untouched; otherwise the chunk is
appended to the carry and the combined buffer is decoded from the front.
Returns (emitted scalar values, new carry). -/
def decode_utf8_stream (carry : List Nat) (chunk : List Nat) :
    List Nat × List Nat :=
  if chunk = [] then ([], carry)
  else decodeLoop (carry ++ chunk)

/-- Feeding a sequence of read chunks through the shared carry buffer, as
the output pump thread does, starting from the empty carry; returns the
concatenation of all emitted outputs and the final carry. -/
def streamDecode (chunks : List (List Nat)) : List Nat × List Nat :=
  chunks.foldl
    (fun acc chunk =>
      let r := decode_utf8_stream acc.2 chunk
      (acc.1 ++ r.1, r.2))
    ([], [])

/-- Rust `String::from_utf8_lossy`: decode from the front and replace the
single trailing incomplete sequence, if any, with one U+FFFD. -/
def lossyDecode (bs : List Nat) : List Nat :=
  let r := decodeLoop bs
  r.1 ++ if r.2 = [] then [] else [0xFFFD]

/-- The standard UTF-8 encoding of a Unicode scalar value. -/
def encodeUtf8 (cp : Nat) : List Nat :=
  if cp < 0x80 then [cp]
  else if cp < 0x800 then [0xC0 + cp / 0x40, 0x80 + cp % 0x40]
  else if cp < 0x10000 then
    [0xE0 + cp / 0x1000, 0x80 + cp / 0x40 % 0x40, 0x80 + cp % 0x40]
  else
    [0xF0 + cp / 0x40000, 0x80 + cp / 0x1000 % 0x40, 0x80 + cp / 0x40 % 0x40,
     0x80 + cp % 0x40]

theorem decodeLoop_nil : decodeLoop [] = ([], []) := by
  simp [decodeLoop]

theorem decodeLoop_char {bs : List Nat} {cp s : Nat}
    (h : utf8Step bs = .char cp s) (hne : bs ≠ []) :
    decodeLoop bs = (cp :: (decodeLoop (bs.drop s)).1, (decodeLoop (bs.drop s)).2) := by
  match bs with
  | b :: r =>
    rw [decodeLoop]
    split <;> simp_all

theorem decodeLoop_invalid {bs : List Nat} {l : Nat}
    (h : utf8Step bs = .invalid l) (hne : bs ≠ []) :
    decodeLoop bs = (0xFFFD :: (decodeLoop (bs.drop (min l bs.length))).1,
      (decodeLoop (bs.drop (min l bs.length))).2) := by
  match bs with
  | b :: r =>
    rw [decodeLoop]
    split <;> simp_all

theorem decodeLoop_incomplete {bs : List Nat}
    (h : utf8Step bs = .incomplete) (hne : bs ≠ []) : decodeLoop bs = ([], bs) := by
  match bs with
  | b :: r =>
    rw [decodeLoop]
    split <;> simp_all

theorem decodeLoop_append (xs ys : List Nat) :
    decodeLoop (xs ++ ys) =
      ((decodeLoop xs).1 ++ (decodeLoop ((decodeLoop xs).2 ++ ys)).1,
       (decodeLoop ((decodeLoop xs).2 ++ ys)).2) := by
  suffices key : ∀ n (xs : List Nat), xs.length = n →
      decodeLoop (xs ++ ys) =
        ((decodeLoop xs).1 ++ (decodeLoop ((decodeLoop xs).2 ++ ys)).1,
         (decodeLoop ((decodeLoop xs).2 ++ ys)).2) by
    exact key xs.length xs rfl
  intro n
  induction n using Nat.strong_induction_on with
  | _ n ih =>
  intro xs hn
  match xs with
  | [] => simp [decodeLoop_nil]
  | b :: r =>
    match hs : utf8Step (b :: r) with
    | .char cp s =>
      have hsz := utf8Step_char_size hs
      have h1 : utf8Step ((b :: r) ++ ys) = .char cp s := utf8Step_append_char ys hs
      rw [decodeLoop_char hs (by simp), decodeLoop_char h1 (by simp),
        List.drop_append_of_le_length (by simpa using hsz.2)]
      have hlen : ((b :: r).drop s).length < n := by
        subst hn
        simp only [List.length_drop, List.length_cons]
        simp only [List.length_cons] at hsz
        omega
      rw [ih _ hlen _ rfl]
      simp
    | .invalid l =>
      have hsz := utf8Step_invalid_len hs
      have h1 : utf8Step ((b :: r) ++ ys) = .invalid l := utf8Step_append_invalid ys hs
      have hminxs : min l (b :: r).length = l := by
        simp only [List.length_cons] at hsz ⊢
        omega
      have hminapp : min l ((b :: r) ++ ys).length = l := by
        simp only [List.length_append, List.length_cons] at hsz ⊢
        omega
      rw [decodeLoop_invalid hs (by simp), decodeLoop_invalid h1 (by simp),
        hminxs, hminapp, List.drop_append_of_le_length (by simpa using hsz.2)]
      have hlen : ((b :: r).drop l).length < n := by
        subst hn
        simp only [List.length_drop, List.length_cons]
        simp only [List.length_cons] at hsz
        omega
      rw [ih _ hlen _ rfl]
      simp
    | .incomplete =>
      rw [decodeLoop_incomplete hs (by simp)]
      simp

theorem decodeLoop_carry (bs : List Nat) :
    (decodeLoop bs).2 = [] ∨ utf8Step (decodeLoop bs).2 = .incomplete := by
  suffices key : ∀ n (bs : List Nat), bs.length = n →
      (decodeLoop bs).2 = [] ∨ utf8Step (decodeLoop bs).2 = .incomplete by
    exact key bs.length bs rfl
  intro n
  induction n using Nat.strong_induction_on with
  | _ n ih =>
  intro bs hn
  match bs with
  | [] => simp [decodeLoop_nil]
  | b :: r =>
    match hs : utf8Step (b :: r) with
    | .char cp s =>
      have hsz := utf8Step_char_size hs
      rw [decodeLoop_char hs (by simp)]
      have hlen : ((b :: r).drop s).length < n := by
        subst hn
        simp only [List.length_drop, List.length_cons]
        simp only [List.length_cons] at hsz
        omega
      exact ih _ hlen _ rfl
    | .invalid l =>
      have hsz := utf8Step_invalid_len hs
      rw [decodeLoop_invalid hs (by simp)]
      have hlen : ((b :: r).drop (min l (b :: r).length)).length < n := by
        subst hn
        simp only [List.length_drop, List.length_cons]
        simp only [List.length_cons] at hsz
        omega
      exact ih _ hlen _ rfl
    | .incomplete =>
      rw [decodeLoop_incomplete hs (by simp)]
      exact Or.inr hs

theorem lossyDecode_nil : lossyDecode [] = [] := by
  simp [lossyDecode, decodeLoop_nil]

theorem decodeLoop_consumed (bs : List Nat) :
    ∃ d, bs = d ++ (decodeLoop bs).2 ∧ lossyDecode d = (decodeLoop bs).1 := by
  suffices key : ∀ n (bs : List Nat), bs.length = n →
      ∃ d, bs = d ++ (decodeLoop bs).2 ∧ lossyDecode d = (decodeLoop bs).1 by
    exact key bs.length bs rfl
  intro n
  induction n using Nat.strong_induction_on with
  | _ n ih =>
  intro bs hn
  match bs with
  | [] => exact ⟨[], by simp [decodeLoop_nil], by simp [lossyDecode_nil, decodeLoop_nil]⟩
  | b :: r =>
    match hs : utf8Step (b :: r) with
    | .char cp s =>
      have hsz := utf8Step_char_size hs
      have hlen : ((b :: r).drop s).length < n := by
        subst hn
        simp only [List.length_drop, List.length_cons]
        simp only [List.length_cons] at hsz
        omega
      obtain ⟨d, hd1, hd2⟩ := ih _ hlen _ rfl
      have htklen : ((b :: r).take s).length = s := by
        simp only [List.length_take]
        simp only [List.length_cons] at hsz ⊢
        omega
      refine ⟨(b :: r).take s ++ d, ?_, ?_⟩
      · rw [decodeLoop_char hs (by simp)]
        conv_lhs => rw [(List.take_append_drop s (b :: r)).symm]
        rw [List.append_assoc]
        simp only [List.append_cancel_left_eq]
        exact hd1
      · have htapp : utf8Step ((b :: r).take s ++ d) = .char cp s :=
          utf8Step_take_char d hs
        have htkdne : (b :: r).take s ++ d ≠ [] := by
          intro hcon
          obtain ⟨h1, _⟩ := List.append_eq_nil.mp hcon
          rw [h1] at htklen
          simp only [List.length_nil] at htklen
          omega
        rw [decodeLoop_char hs (by simp)]
        rw [lossyDecode, decodeLoop_char htapp htkdne]
        rw [List.drop_append_of_le_length (by omega)]
        have hde : ((b :: r).take s).drop s = [] :=
          List.drop_eq_nil_of_le (by omega)
        rw [hde, List.nil_append]
        rw [lossyDecode] at hd2
        simp only []
        rw [← hd2]
        simp
    | .invalid l =>
      have hsz := utf8Step_invalid_len hs
      have hmin : min l (b :: r).length = l := by
        simp only [List.length_cons] at hsz ⊢
        omega
      have hlen : ((b :: r).drop l).length < n := by
        subst hn
        simp only [List.length_drop, List.length_cons]
        simp only [List.length_cons] at hsz
        omega
      obtain ⟨d, hd1, hd2⟩ := ih _ hlen _ rfl
      have hstep : decodeLoop (b :: r)
          = (0xFFFD :: (decodeLoop ((b :: r).drop l)).1,
             (decodeLoop ((b :: r).drop l)).2) := by
        rw [decodeLoop_invalid hs (by simp), hmin]
      have htklen : ((b :: r).take l).length = l := by
        simp only [List.length_take]
        simp only [List.length_cons] at hsz ⊢
        omega
      have htkne : (b :: r).take l ≠ [] := by
        intro hcon
        rw [hcon] at htklen
        simp only [List.length_nil] at htklen
        omega
      refine ⟨(b :: r).take l ++ d, ?_, ?_⟩
      · rw [hstep]
        conv_lhs => rw [(List.take_append_drop l (b :: r)).symm]
        rw [List.append_assoc]
        simp only [List.append_cancel_left_eq]
        exact hd1
      · rw [hstep]
        match d, hd1, hd2 with
        | [], hd1, hd2 =>
          -- nothing beyond the ill-formed span was consumed
          have ho : (decodeLoop ((b :: r).drop l)).1 = [] := by
            rw [← hd2, lossyDecode_nil]
          rw [List.append_nil, ho]
          rcases utf8Step_take_invalid_self hs with hti | hti
          · rw [lossyDecode, decodeLoop_invalid hti htkne]
            have hm2 : min l ((b :: r).take l).length = l := by
              rw [htklen]
              omega
            rw [hm2]
            have hde : ((b :: r).take l).drop l = [] :=
              List.drop_eq_nil_of_le (by rw [htklen])
            rw [hde, decodeLoop_nil]
            simp
          · rw [lossyDecode, decodeLoop_incomplete hti htkne]
            simp [htkne]
        | dh :: dt, hd1, hd2 =>
          -- the byte after the ill-formed span was examined and consumed
          have hbs : (b :: r).drop l = dh :: (dt ++ (decodeLoop ((b :: r).drop l)).2) := by
            simpa using hd1
          have htk1 : (b :: r).take (l + 1) = (b :: r).take l ++ [dh] := by
            conv_lhs => rw [(List.take_append_drop l (b :: r)).symm, hbs]
            rw [List.take_append_eq_append_take,
              List.take_of_length_le (by rw [htklen]; omega), htklen]
            simp
          have hstep2 : utf8Step ((b :: r).take l ++ dh :: dt) = .invalid l := by
            have := utf8Step_take_invalid dt hs
            rw [htk1] at this
            simpa [List.append_assoc] using this
          have hne2 : (b :: r).take l ++ dh :: dt ≠ [] := by
            intro hcon
            obtain ⟨_, h2⟩ := List.append_eq_nil.mp hcon
            cases h2
          rw [lossyDecode, decodeLoop_invalid hstep2 hne2]
          have hm3 : min l ((b :: r).take l ++ dh :: dt).length = l := by
            simp only [List.length_append, htklen]
            omega
          rw [hm3, List.drop_append_of_le_length (by rw [htklen])]
          have hde : ((b :: r).take l).drop l = [] :=
            List.drop_eq_nil_of_le (by rw [htklen])
          rw [hde, List.nil_append]
          rw [lossyDecode] at hd2
          simp only []
          rw [← hd2]
          simp
    | .incomplete =>
      refine ⟨[], ?_, ?_⟩
      · rw [decodeLoop_incomplete hs (by simp)]
        simp
      · rw [decodeLoop_incomplete hs (by simp), lossyDecode_nil]

theorem streamDecode_foldl_eq (chunks : List (List Nat)) :
    ∀ (o : List Nat) (c : List Nat), (c = [] ∨ utf8Step c = .incomplete) →
      chunks.foldl
        (fun acc chunk =>
          let r := decode_utf8_stream acc.2 chunk
          (acc.1 ++ r.1, r.2)) (o, c) =
      (o ++ (decodeLoop (c ++ chunks.flatten)).1,
       (decodeLoop (c ++ chunks.flatten)).2) := by
  induction chunks with
  | nil =>
    intro o c hc
    match c with
    | [] => simp [decodeLoop_nil]
    | x :: xs =>
      rcases hc with hc | hc
      · simp at hc
      · simp [decodeLoop_incomplete hc (by simp)]
  | cons ch rest ih =>
    intro o c hc
    rw [List.foldl_cons]
    by_cases hch : ch = []
    · subst hch
      have h1 : decode_utf8_stream c [] = ([], c) := by simp [decode_utf8_stream]
      simp only [h1]
      rw [ih _ _ hc]
      simp
    · have hstep : decode_utf8_stream c ch = decodeLoop (c ++ ch) := by
        simp [decode_utf8_stream, hch]
      simp only [hstep]
      rw [ih _ _ (decodeLoop_carry (c ++ ch))]
      have happ := decodeLoop_append (c ++ ch) rest.flatten
      simp only [List.flatten_cons, ← List.append_assoc]
      rw [happ]
      simp

theorem streamDecode_eq_batch (chunks : List (List Nat)) :
    streamDecode chunks = decodeLoop chunks.flatten := by
  rw [streamDecode, streamDecode_foldl_eq chunks [] [] (Or.inl rfl)]
  simp

theorem encodeUtf8_four {cp : Nat} (h1 : 0x10000 ≤ cp) (h2 : cp ≤ 0x10FFFF) :
    encodeUtf8 cp = [0xF0 + cp / 0x40000, 0x80 + cp / 0x1000 % 0x40,
      0x80 + cp / 0x40 % 0x40, 0x80 + cp % 0x40] := by
  rw [encodeUtf8, if_neg (by omega), if_neg (by omega), if_neg (by omega)]

theorem utf8Step_encode_head {cp : Nat} (h1 : 0x10000 ≤ cp) (h2 : cp ≤ 0x10FFFF) :
    utf8Step [0xF0 + cp / 0x40000] = .incomplete := by
  simp only [utf8Step]
  split_ifs <;> first | rfl | (exfalso; omega)

theorem utf8Step_encode_full {cp : Nat} (h1 : 0x10000 ≤ cp) (h2 : cp ≤ 0x10FFFF) :
    utf8Step [0xF0 + cp / 0x40000, 0x80 + cp / 0x1000 % 0x40,
      0x80 + cp / 0x40 % 0x40, 0x80 + cp % 0x40] = .char cp 4 := by
  have e1 : cp / 0x1000 / 0x40 = cp / 0x40000 := by
    rw [Nat.div_div_eq_div_mul]
  have e2 : cp / 0x40 / 0x40 = cp / 0x1000 := by
    rw [Nat.div_div_eq_div_mul]
  simp only [utf8Step]
  split_ifs <;>
    first
    | (exfalso; omega)
    | (simp only [Utf8Step.char.injEq, eq_self_iff_true, and_true]; omega)

theorem utf8Step_invalid_then_ascii {b a : Nat} (rest : List Nat)
    (hb : 0x80 ≤ b) (ha : a < 0x80) :
    utf8Step (b :: a :: rest) = .invalid 1 := by
  simp only [utf8Step]
  split_ifs <;> first | rfl | (exfalso; omega)

theorem decodeLoop_ascii (l : List Nat) (h : ∀ x ∈ l, x < 0x80) :
    decodeLoop l = (l, []) := by
  induction l with
  | nil => exact decodeLoop_nil
  | cons a rest ih =>
    have ha : a < 0x80 := h a (List.mem_cons_self a rest)
    have hstep : utf8Step (a :: rest) = .char a 1 := by
      simp only [utf8Step]
      rw [if_pos ha]
    rw [decodeLoop_char hstep (by simp)]
    simp only [List.drop_succ_cons, List.drop_zero]
    rw [ih (fun x hx => h x (List.mem_cons_of_mem a hx))]

/-- Claim C1: a 4-byte code point fed as a 1-byte chunk followed by a
3-byte chunk is emitted as exactly the original character with no U+FFFD
and an empty carry; a chunk of one invalid byte followed by ASCII emits
exactly one U+FFFD followed by the full ASCII text. -/
theorem claim1_utf8_boundary_safety :
    (∀ cp : Nat, 0x10000 ≤ cp → cp ≤ 0x10FFFF →
      decode_utf8_stream [] ((encodeUtf8 cp).take 1) = ([], (encodeUtf8 cp).take 1) ∧
      decode_utf8_stream ((encodeUtf8 cp).take 1) ((encodeUtf8 cp).drop 1) = ([cp], [])) ∧
    (∀ (b a : Nat) (rest : List Nat), 0x80 ≤ b → a < 0x80 → (∀ x ∈ rest, x < 0x80) →
      decode_utf8_stream [] (b :: a :: rest) = (0xFFFD :: a :: rest, [])) := by
  constructor
  · intro cp h1 h2
    rw [encodeUtf8_four h1 h2]
    simp only [List.take_succ_cons, List.take_zero, List.drop_succ_cons, List.drop_zero]
    constructor
    · rw [decode_utf8_stream, if_neg (by simp)]
      simp only [List.nil_append]
      rw [decodeLoop_incomplete (utf8Step_encode_head h1 h2) (by simp)]
    · rw [decode_utf8_stream, if_neg (by simp)]
      simp only [List.cons_append, List.nil_append]
      rw [decodeLoop_char (utf8Step_encode_full h1 h2) (by simp)]
      simp only [List.drop_succ_cons, List.drop_nil]
      rw [decodeLoop_nil]
  · intro b a rest hb ha hrest
    rw [decode_utf8_stream, if_neg (by simp)]
    simp only [List.nil_append]
    rw [decodeLoop_invalid (utf8Step_invalid_then_ascii rest hb ha) (by simp)]
    have hmin : min 1 (b :: a :: rest).length = 1 := by simp
    rw [hmin]
    simp only [List.drop_succ_cons, List.drop_zero]
    rw [decodeLoop_ascii (a :: rest) (by
      intro x hx
      rcases List.mem_cons.mp hx with h | h
      · omega
      · exact hrest x h)]

/-- Witness for C1: U+1F600 split 1+3, and an 0xFF byte before "hi". -/
theorem claim1_witness :
    (decode_utf8_stream [] ((encodeUtf8 0x1F600).take 1)
        = ([], (encodeUtf8 0x1F600).take 1) ∧
      decode_utf8_stream ((encodeUtf8 0x1F600).take 1) ((encodeUtf8 0x1F600).drop 1)
        = ([0x1F600], [])) ∧
    decode_utf8_stream [] (0xFF :: 0x68 :: [0x69]) = (0xFFFD :: 0x68 :: [0x69], []) :=
  ⟨claim1_utf8_boundary_safety.1 0x1F600 (by decide) (by decide),
   claim1_utf8_boundary_safety.2 0xFF 0x68 [0x69] (by decide) (by decide)
     (by intro x hx; simp at hx; omega)⟩

/-- Claim C10: after any sequence of chunks from the empty carry, the carry
is empty or a single valid-so-far incomplete sequence of at most 3 bytes,
and the emitted text is exactly the (lossy) decoding of the bytes consumed
from the front of the buffer. -/
theorem claim10_carry_invariant (chunks : List (List Nat)) :
    ((streamDecode chunks).2 = [] ∨ utf8Step (streamDecode chunks).2 = .incomplete) ∧
    (streamDecode chunks).2.length ≤ 3 ∧
    ∃ consumed, chunks.flatten = consumed ++ (streamDecode chunks).2 ∧
      lossyDecode consumed = (streamDecode chunks).1 := by
  rw [streamDecode_eq_batch]
  refine ⟨decodeLoop_carry chunks.flatten, ?_, decodeLoop_consumed chunks.flatten⟩
  rcases decodeLoop_carry chunks.flatten with h | h
  · rw [h]
    simp
  · exact utf8Step_incomplete_len h

theorem idCharOk_not_ws {c : Char} (h : idCharOk c = true) :
    rustIsWhitespace c = false := by
  by_contra hcon
  rw [Bool.not_eq_false] at hcon
  simp only [idCharOk, isAsciiAlphanumeric, Bool.or_eq_true, Bool.and_eq_true,
    decide_eq_true_eq] at h
  simp only [rustIsWhitespace, Bool.or_eq_true, Bool.and_eq_true,
    decide_eq_true_eq] at hcon
  omega

theorem sanitizeChar_ok (c : Char) : idCharOk (sanitizeChar c) = true := by
  rw [sanitizeChar]
  by_cases h : idCharOk c = true
  · rw [if_pos h]
    exact h
  · rw [if_neg h]
    decide

theorem sanitizeChar_fix {c : Char} (h : idCharOk c = true) : sanitizeChar c = c := by
  rw [sanitizeChar, if_pos h]

theorem dropWhile_eq_self_of_all {l : List Char}
    (h : ∀ c ∈ l, rustIsWhitespace c = false) :
    l.dropWhile rustIsWhitespace = l := by
  match l with
  | [] => rfl
  | a :: t =>
    rw [List.dropWhile_cons_of_neg]
    simp [h a (List.mem_cons_self a t)]

theorem rustTrimChars_eq_self_of_all {l : List Char}
    (h : ∀ c ∈ l, rustIsWhitespace c = false) :
    rustTrimChars l = l := by
  rw [rustTrimChars, dropWhile_eq_self_of_all h,
    dropWhile_eq_self_of_all (by
      intro c hc
      exact h c (List.mem_reverse.mp hc)), List.reverse_reverse]

theorem map_sanitizeChar_eq_self_of_all {l : List Char}
    (h : ∀ c ∈ l, idCharOk c = true) : l.map sanitizeChar = l := by
  induction l with
  | nil => rfl
  | cons a t ih =>
    rw [List.map_cons, sanitizeChar_fix (h a (List.mem_cons_self a t)),
      ih (fun c hc => h c (List.mem_cons_of_mem a hc))]

/-- The three structural facts about every sanitized id: nonempty, at most
120 characters, all characters admissible. -/
theorem sanitize_props (input : String) :
    (sanitize_recording_id input).data ≠ [] ∧
    (sanitize_recording_id input).data.length ≤ 120 ∧
    ∀ c ∈ (sanitize_recording_id input).data, idCharOk c = true := by
  rw [sanitize_recording_id]
  by_cases h1 : rustTrim input = ""
  · rw [if_pos h1]
    refine ⟨by decide, by decide, ?_⟩
    decide
  · rw [if_neg h1]
    by_cases h2 : String.mk (((rustTrim input).data.take 120).map sanitizeChar) = ""
    · rw [if_pos h2]
      refine ⟨by decide, by decide, ?_⟩
      decide
    · rw [if_neg h2]
      refine ⟨?_, ?_, ?_⟩
      · intro hcon
        apply h2
        have hl : ((rustTrim input).data.take 120).map sanitizeChar = [] := hcon
        rw [show ("" : String) = String.mk [] from rfl]
        exact congrArg String.mk hl
      · simp only [List.length_map, List.length_take]
        omega
      · intro c hc
        simp only [List.mem_map] at hc
        obtain ⟨c0, _, rfl⟩ := hc
        exact sanitizeChar_ok c0

/-- A string whose characters are all admissible, nonempty and of length at
most 120 is a fixed point of the sanitizer. -/
theorem sanitize_fixed {r : String} (hne : r.data ≠ [])
    (hlen : r.data.length ≤ 120)
    (hok : ∀ c ∈ r.data, idCharOk c = true) :
    sanitize_recording_id r = r := by
  have htrim : rustTrim r = r := by
    show String.mk (rustTrimChars r.data) = r
    rw [rustTrimChars_eq_self_of_all (fun c hc => idCharOk_not_ws (hok c hc))]
  rw [sanitize_recording_id, htrim, if_neg (by
    intro hcon
    apply hne
    rw [hcon])]
  rw [List.take_of_length_le hlen, map_sanitizeChar_eq_self_of_all hok]
  show (if String.mk r.data = "" then "recording" else String.mk r.data) = r
  have hmk : String.mk r.data = r := rfl
  rw [hmk, if_neg (by
    intro hcon
    apply hne
    have := congrArg String.data hcon
    simpa using this)]

theorem sanitize_all_ws {input : String}
    (h : ∀ c ∈ input.data, rustIsWhitespace c = true) :
    sanitize_recording_id input = "recording" := by
  have htrim : rustTrim input = "" := by
    show String.mk (rustTrimChars input.data) = ""
    have h1 : input.data.dropWhile rustIsWhitespace = [] :=
      List.dropWhile_eq_nil_iff.mpr h
    rw [rustTrimChars, h1]
    rfl
  rw [sanitize_recording_id, htrim, if_pos rfl]

/-- Claim C7: every sanitized recording id is a nonempty string of at most
120 characters drawn from ASCII alphanumerics, `-` and `_`; in particular
it contains no path separator; an empty or all-whitespace input produces
the fixed placeholder `"recording"`. -/
theorem claim7_sanitize_output_shape (input : String) :
    sanitize_recording_id input ≠ "" ∧
    (sanitize_recording_id input).length ≤ 120 ∧
    (∀ c ∈ (sanitize_recording_id input).data, idCharOk c = true) ∧
    '/' ∉ (sanitize_recording_id input).data ∧
    '\\' ∉ (sanitize_recording_id input).data ∧
    ((∀ c ∈ input.data, rustIsWhitespace c = true) →
      sanitize_recording_id input = "recording") := by
  obtain ⟨h1, h2, h3⟩ := sanitize_props input
  refine ⟨?_, h2, h3, ?_, ?_, sanitize_all_ws⟩
  · intro hcon
    apply h1
    have := congrArg String.data hcon
    simpa using this
  · intro hmem
    have := h3 _ hmem
    simp [idCharOk, isAsciiAlphanumeric] at this
  · intro hmem
    have := h3 _ hmem
    simp [idCharOk, isAsciiAlphanumeric] at this

/-- Witness for C7 at the inputs named by the spec. -/
theorem claim7_sanitize_witness :
    sanitize_recording_id "../../etc" ≠ "" ∧
    '/' ∉ (sanitize_recording_id "../../etc").data ∧
    sanitize_recording_id "   " = "recording" :=
  ⟨(claim7_sanitize_output_shape "../../etc").1,
   (claim7_sanitize_output_shape "../../etc").2.2.2.1,
   (claim7_sanitize_output_shape "   ").2.2.2.2.2 (by decide)⟩

/-- Claim C8: the sanitizer is idempotent. -/
theorem claim8_sanitize_idempotent (s : String) :
    sanitize_recording_id (sanitize_recording_id s) = sanitize_recording_id s := by
  obtain ⟨h1, h2, h3⟩ := sanitize_props s
  exact sanitize_fixed h1 h2 h3

/-- The caller-supplied directory claim, exactly as the spec states it: the
supplied string is used only when it is an absolute path to an existing
directory.  The code never tests absoluteness, so this fails on any
relative path that names an existing directory; see the counterexample. -/
theorem claim4_counterexample :
    resolveCwd (fun s => s == "projects") none (some "projects")
        = some "projects" ∧
    isAbsolutePath "projects" = false := by
  constructor
  · rfl
  · rfl

/-- Claim C4 as amended: the session working directory is the trimmed
caller-supplied string whenever that trim is nonempty and names an existing
directory — absolute or relative; otherwise the home directory when it is
an existing directory; otherwise unset.  Every directory handed out passes
the `is_dir` test. -/
theorem claim4_cwd_resolution (isDir : String → Bool) (home : Option String)
    (c : Option String) :
    (∀ s, c = some s → rustTrim s ≠ "" → isDir (rustTrim s) = true →
      resolveCwd isDir home c = some (rustTrim s)) ∧
    (∀ s, c = some s → (rustTrim s = "" ∨ isDir (rustTrim s) = false) →
      resolveCwd isDir home c = resolveCwd isDir home none) ∧
    (resolveCwd isDir home none =
      match home with
      | some h => if isDir h then some h else none
      | none => none) ∧
    (∀ d, resolveCwd isDir home c = some d → isDir d = true) := by
  refine ⟨?_, ?_, ?_, ?_⟩
  · rintro s rfl hne hdir
    rw [resolveCwd.eq_def]
    simp only [if_neg hne, if_pos hdir]
  · rintro s rfl hbad
    rw [resolveCwd.eq_def, resolveCwd.eq_def]
    rcases hbad with hbad | hbad
    · simp only [if_pos hbad]
    · by_cases hne : rustTrim s = ""
      · simp only [if_pos hne]
      · simp only [if_neg hne, hbad]
        simp
  · rw [resolveCwd.eq_def]
  · intro d
    rw [resolveCwd.eq_def]
    match c with
    | none =>
      match home with
      | none => intro h; cases h
      | some hd =>
        by_cases hh : isDir hd
        · simp only [if_pos hh]
          intro h
          cases h
          exact hh
        · simp only [if_neg hh]
          intro h
          cases h
    | some s =>
      by_cases hne : rustTrim s = ""
      · simp only [if_pos hne]
        match home with
        | none => intro h; cases h
        | some hd =>
          by_cases hh : isDir hd
          · simp only [if_pos hh]
            intro h
            cases h
            exact hh
          · simp only [if_neg hh]
            intro h
            cases h
      · by_cases hdir : isDir (rustTrim s)
        · simp only [if_neg hne, if_pos hdir]
          intro h
          cases h
          exact hdir
        · simp only [if_neg hne, if_neg hdir]
          match home with
          | none => intro h; cases h
          | some hd =>
            by_cases hh : isDir hd
            · simp only [if_pos hh]
              intro h
              cases h
              exact hh
            · simp only [if_neg hh]
              intro h
              cases h

/-- Witness for the amended C4. -/
theorem claim4_cwd_witness :
    resolveCwd (fun s => s == "projects") (some "/home/u") (some " projects ")
        = some "projects" ∧
    resolveCwd (fun s => s == "/home/u") (some "/home/u") (some "gone")
        = some "/home/u" :=
  ⟨(claim4_cwd_resolution (fun s => s == "projects") (some "/home/u")
      (some " projects ")).1 " projects " rfl (by decide) (by decide),
   by
    have h2 := (claim4_cwd_resolution (fun s => s == "/home/u") (some "/home/u")
      (some "gone")).2.1 "gone" rfl (Or.inr (by decide))
    have h3 := (claim4_cwd_resolution (fun s => s == "/home/u") (some "/home/u")
      (some "gone")).2.2.1
    rw [h2, h3]
    rfl⟩

theorem find_map_update :
    ∀ (l : List (String × PtySession)) (id : String) (s' : PtySession),
      (l.find? (fun p => p.1 = id)).isSome = true →
      (l.map (fun p => if p.1 = id then (id, s') else p)).find?
        (fun p => p.1 = id) = some (id, s')
  | [], _, _, h => by simp [List.find?] at h
  | a :: t, id, s', h => by
    by_cases ha : a.1 = id
    · simp only [List.map_cons, if_pos ha]
      rw [List.find?_cons_of_pos _ (by simp)]
    · simp only [List.map_cons, if_neg ha]
      rw [List.find?_cons_of_neg _ (by simp [ha])]
      apply find_map_update t
      rw [List.find?_cons_of_neg _ (by simp [ha])] at h
      exact h

theorem lookupSession_isSome {st : AppState} {id : String}
    (h : (lookupSession st id).isSome = true) :
    (st.sessions.find? (fun p => p.1 = id)).isSome = true := by
  rw [lookupSession] at h
  rcases hf : st.sessions.find? (fun p => p.1 = id) with _ | v
  · rw [hf] at h
    simp at h
  · rw [hf]
    rfl

theorem lookupSession_update {st : AppState} {id : String} (s' : PtySession)
    (h : (lookupSession st id).isSome = true) :
    lookupSession (updateSession st id s') id = some s' := by
  rw [lookupSession, updateSession]
  simp only []
  rw [find_map_update st.sessions id s' (lookupSession_isSome h)]
  rfl

/-- Claim C6: `close_session` always succeeds — on live, closed and
never-created ids alike — afterwards the id is gone from lookups and from
`list_sessions`, and a second close succeeds and is a no-op. -/
theorem claim6_close_idempotent (st : AppState) (id : String) :
    ∃ st', close_session st id = .ok st' ∧
      lookupSession st' id = none ∧
      (∀ p ∈ list_sessions st', p.1 ≠ id) ∧
      close_session st' id = .ok st' := by
  refine ⟨{ st with sessions := st.sessions.filter (fun p => ¬ p.1 = id) },
    rfl, ?_, ?_, ?_⟩
  · rw [lookupSession]
    have hnone : (st.sessions.filter (fun p => ¬ p.1 = id)).find?
        (fun p => p.1 = id) = none := by
      rw [List.find?_eq_none]
      intro x hx
      have := List.of_mem_filter hx
      simp only [decide_eq_true_eq] at this ⊢
      exact this
    rw [hnone]
    rfl
  · intro p hp
    rw [list_sessions] at hp
    simp only [List.mem_map] at hp
    obtain ⟨q, hq, rfl⟩ := hp
    have := List.of_mem_filter hq
    simpa using this
  · rw [close_session]
    have : (st.sessions.filter (fun p => ¬ p.1 = id)).filter
        (fun p => ¬ p.1 = id) = st.sessions.filter (fun p => ¬ p.1 = id) := by
      rw [List.filter_eq_self]
      intro a ha
      exact (List.mem_filter.mp ha).2
    rw [this]

/-- Witness for C6 on a one-session registry. -/
theorem claim6_close_witness :
    ∃ st', close_session ⟨1, [("0", ⟨"shell", none⟩)]⟩ "0" = .ok st' ∧
      lookupSession st' "0" = none ∧
      (∀ p ∈ list_sessions st', p.1 ≠ "0") ∧
      close_session st' "0" = .ok st' :=
  claim6_close_idempotent ⟨1, [("0", ⟨"shell", none⟩)]⟩ "0"

/-- Claim C5: when recording an input event fails, the write still
succeeds, the recording is detached, and the session stays registered. -/
theorem claim5_record_failure_absorbed (st : AppState) (id : String)
    (s : PtySession) (rec : SessionRecording) (data : List Nat) (now : Nat)
    (hlk : lookupSession st id = some s) (hrec : s.recording = some rec) :
    write_to_session false true now st id data (some "user")
      = .ok (updateSession st id { s with recording := none }) ∧
    lookupSession (updateSession st id { s with recording := none }) id
      = some { s with recording := none } := by
  constructor
  · rw [write_to_session.eq_def, hlk]
    simp only [if_neg (by simp : ¬(false = true)), hrec]
    simp
  · exact lookupSession_update _ (by rw [hlk]; rfl)

/-- Witness for C5. -/
theorem claim5_witness :
    write_to_session false true 7 ⟨1, [("0", ⟨"shell", some ⟨0, 0, 0, []⟩⟩)]⟩
        "0" [0x6C, 0x73] (some "user")
      = .ok (updateSession ⟨1, [("0", ⟨"shell", some ⟨0, 0, 0, []⟩⟩)]⟩ "0"
          ⟨"shell", none⟩) ∧
    lookupSession (updateSession ⟨1, [("0", ⟨"shell", some ⟨0, 0, 0, []⟩⟩)]⟩ "0"
        ⟨"shell", none⟩) "0" = some ⟨"shell", none⟩ :=
  claim5_record_failure_absorbed ⟨1, [("0", ⟨"shell", some ⟨0, 0, 0, []⟩⟩)]⟩
    "0" ⟨"shell", some ⟨0, 0, 0, []⟩⟩ ⟨0, 0, 0, []⟩ [0x6C, 0x73] 7
    (by rfl) (by rfl)

/-- Claim C9: a write whose source is not exactly `"user"` leaves the
registry — in particular the session's recording state, its buffered lines
and its flush bookkeeping — completely unchanged, and succeeds. -/
theorem claim9_non_user_write_no_record (st : AppState) (id : String)
    (s : PtySession) (recFail : Bool) (now : Nat) (data : List Nat)
    (source : Option String)
    (hlk : lookupSession st id = some s) (hsrc : source ≠ some "user") :
    write_to_session false recFail now st id data source = .ok st := by
  rw [write_to_session.eq_def, hlk]
  simp [hsrc]

/-- Witness for C9: a program-sourced write on a session with an active
recording records nothing. -/
theorem claim9_witness :
    write_to_session false false 7 ⟨1, [("0", ⟨"shell", some ⟨0, 0, 0, []⟩⟩)]⟩
        "0" [0x6C] (some "program")
      = .ok ⟨1, [("0", ⟨"shell", some ⟨0, 0, 0, []⟩⟩)]⟩ :=
  claim9_non_user_write_no_record ⟨1, [("0", ⟨"shell", some ⟨0, 0, 0, []⟩⟩)]⟩
    "0" ⟨"shell", some ⟨0, 0, 0, []⟩⟩ false 7 [0x6C] (some "program")
    (by rfl) (by simp)

theorem jsonEscapeByte_len (b : Nat) : 1 ≤ (jsonEscapeByte b).length := by
  rw [jsonEscapeByte]
  split_ifs <;> simp

theorem jsonEscape_len (data : List Nat) : data.length ≤ (jsonEscape data).length := by
  rw [jsonEscape]
  induction data with
  | nil => simp
  | cons a t ih =>
    simp only [List.map_cons, List.flatten_cons, List.length_append, List.length_cons]
    have := jsonEscapeByte_len a
    omega

theorem serializeInputLine_len (t : Nat) (data : List Nat) :
    data.length ≤ (serializeInputLine t data).length := by
  rw [serializeInputLine]
  simp only [List.length_append]
  have := jsonEscape_len data
  omega

/-- The flush flag of one recorder call, as a proposition. -/
theorem record_user_input_flag (now : Nat) (rec : SessionRecording)
    (data : List Nat) :
    ((record_user_input now rec data).2 = true ↔
      (data.contains 0x0A = true ∨ data.contains 0x0D = true ∨
        16 * 1024 ≤ rec.unflushed_bytes +
          (serializeInputLine (now - rec.started_at) data).length + 1 ∨
        1500 ≤ now - rec.last_flush)) := by
  simp only [record_user_input]
  split_ifs with hf
  · simp only [true_iff]
    simp only [Bool.or_eq_true, decide_eq_true_eq, ge_iff_le] at hf
    tauto
  · simp only [false_iff]
    intro hcon
    apply hf
    simp only [Bool.or_eq_true, decide_eq_true_eq, ge_iff_le]
    tauto

theorem record_user_input_no_flush {now : Nat} {rec : SessionRecording}
    {data : List Nat} (h : (record_user_input now rec data).2 = false) :
    (record_user_input now rec data).1.unflushed_bytes
        = rec.unflushed_bytes +
          (serializeInputLine (now - rec.started_at) data).length + 1 ∧
    (record_user_input now rec data).1.unflushed_bytes < 16 * 1024 ∧
    (record_user_input now rec data).1.started_at = rec.started_at := by
  simp only [record_user_input] at h ⊢
  split_ifs at h ⊢ with hf
  · refine ⟨rfl, ?_, rfl⟩
    simp only [Bool.or_eq_true, decide_eq_true_eq, ge_iff_le] at hf
    push_neg at hf
    show rec.unflushed_bytes + (serializeInputLine (now - rec.started_at) data).length + 1
      < 16 * 1024
    omega

theorem runRecord_nil (rec : SessionRecording) : runRecord rec [] = (rec, false) := rfl

theorem runRecord_bool_thread :
    ∀ (cs : List (Nat × List Nat)) (x : SessionRecording) (b : Bool),
      cs.foldl
        (fun acc c =>
          let r := record_user_input c.1 acc.1 c.2
          (r.1, acc.2 || r.2)) (x, b) =
      ((cs.foldl
        (fun acc c =>
          let r := record_user_input c.1 acc.1 c.2
          (r.1, acc.2 || r.2)) (x, false)).1,
       b || (cs.foldl
        (fun acc c =>
          let r := record_user_input c.1 acc.1 c.2
          (r.1, acc.2 || r.2)) (x, false)).2) := by
  intro cs
  induction cs with
  | nil =>
    intro x b
    simp
  | cons c cs ih =>
    intro x b
    rw [List.foldl_cons, List.foldl_cons]
    simp only []
    rw [ih (record_user_input c.1 x c.2).1 (b || (record_user_input c.1 x c.2).2),
      ih (record_user_input c.1 x c.2).1 (false || (record_user_input c.1 x c.2).2)]
    simp [Bool.or_assoc]

theorem runRecord_cons (rec : SessionRecording) (c : Nat × List Nat)
    (cs : List (Nat × List Nat)) :
    runRecord rec (c :: cs) =
      ((runRecord (record_user_input c.1 rec c.2).1 cs).1,
       (record_user_input c.1 rec c.2).2 ||
         (runRecord (record_user_input c.1 rec c.2).1 cs).2) := by
  rw [runRecord, runRecord, List.foldl_cons]
  simp only []
  rw [runRecord_bool_thread]
  simp

/-- If a call sequence never triggers a flush, the final unflushed counter
dominates the total raw byte count, and (unless nothing changed) stayed
below the 16 KiB threshold. -/
theorem runRecord_no_flush :
    ∀ (calls : List (Nat × List Nat)) (rec : SessionRecording),
      (runRecord rec calls).2 = false →
      rec.unflushed_bytes + (calls.map (fun c => c.2.length)).sum
          ≤ (runRecord rec calls).1.unflushed_bytes ∧
      ((runRecord rec calls).1.unflushed_bytes = rec.unflushed_bytes ∨
        (runRecord rec calls).1.unflushed_bytes < 16 * 1024) := by
  intro calls
  induction calls with
  | nil =>
    intro rec h
    rw [runRecord_nil]
    simp
  | cons c cs ih =>
    intro rec h
    rw [runRecord_cons] at h ⊢
    simp only [Bool.or_eq_false_iff] at h
    obtain ⟨hflag, hrest⟩ := h
    obtain ⟨heq, hlt, _⟩ := record_user_input_no_flush hflag
    obtain ⟨ih1, ih2⟩ := ih (record_user_input c.1 rec c.2).1 hrest
    have hser := serializeInputLine_len (c.1 - rec.started_at) c.2
    constructor
    · simp only [List.map_cons, List.sum_cons]
      omega
    · rcases ih2 with h2 | h2
      · right
        rw [h2]
        exact hlt
      · right
        exact h2

/-- Claim C3: the recorder flushes after appending an input event exactly
when the data holds a newline or carriage return, when the unflushed-byte
counter (which includes the serialized event just appended) has reached
16 KiB, or when at least 1500 ms have passed since the last flush; a
newline always flushes; and a newline-free call sequence totalling 17 KiB
of raw data must have flushed once the 16 KiB threshold was crossed. -/
theorem claim3_recorder_flush_policy :
    (∀ (now : Nat) (rec : SessionRecording) (data : List Nat),
      ((record_user_input now rec data).2 = true ↔
        (data.contains 0x0A = true ∨ data.contains 0x0D = true ∨
          16 * 1024 ≤ rec.unflushed_bytes +
            (serializeInputLine (now - rec.started_at) data).length + 1 ∨
          1500 ≤ now - rec.last_flush))) ∧
    (∀ (now : Nat) (rec : SessionRecording) (data : List Nat),
      data.contains 0x0A = true → (record_user_input now rec data).2 = true) ∧
    (∀ (rec : SessionRecording) (calls : List (Nat × List Nat)),
      rec.unflushed_bytes = 0 →
      (∀ c ∈ calls, c.2.contains 0x0A = false ∧ c.2.contains 0x0D = false) →
      17 * 1024 ≤ (calls.map (fun c => c.2.length)).sum →
      (runRecord rec calls).2 = true) := by
  refine ⟨record_user_input_flag, ?_, ?_⟩
  · intro now rec data h
    exact (record_user_input_flag now rec data).mpr (Or.inl h)
  · intro rec calls h0 _ hsum
    by_contra hcon
    rw [Bool.not_eq_true] at hcon
    obtain ⟨hge, hcase⟩ := runRecord_no_flush calls rec hcon
    rw [h0] at hge hcase
    rcases hcase with hc | hc <;> omega

/-- Witness for C3: an immediate flush on a newline, and a forced flush for
17 KiB of newline-free data. -/
theorem claim3_recorder_witness :
    (record_user_input 0 ⟨0, 0, 0, []⟩ [0x0A]).2 = true ∧
    (runRecord ⟨0, 0, 0, []⟩ [(0, List.replicate (17 * 1024) 0x61)]).2 = true := by
  constructor
  · exact claim3_recorder_flush_policy.2.1 0 ⟨0, 0, 0, []⟩ [0x0A] (by decide)
  · apply claim3_recorder_flush_policy.2.2 ⟨0, 0, 0, []⟩ _ rfl
    · intro c hc
      simp only [List.mem_singleton] at hc
      subst hc
      constructor
      · show (List.replicate (17 * 1024) 0x61).contains 0x0A = false
        rw [List.contains_replicate]
        decide
      · show (List.replicate (17 * 1024) 0x61).contains 0x0D = false
        rw [List.contains_replicate]
        decide
    · rw [List.map_cons, List.map_nil, List.sum_cons, List.sum_nil]
      rw [show ((0 : Nat), List.replicate (17 * 1024) (0x61 : Nat)).2
          = List.replicate (17 * 1024) (0x61 : Nat) from rfl]
      rw [List.length_replicate]
      omega

theorem sessionNames_create (st : AppState) (name : Option String) (isShell : Bool) :
    sessionNames (create_session st name isShell).1
      = sessionNames st ++
        [unique_name (sessionNames st)
          (let b := rustTrim (name.getD (if isShell then "shell" else "agent"))
           if b = "" then "session" else b)] := by
  rw [create_session]
  simp only [sessionNames, List.map_append, List.map_cons, List.map_nil]

theorem nodup_applyOp {st : AppState} (h : (sessionNames st).Nodup) (op : SessionOp) :
    (sessionNames (applyOp st op)).Nodup := by
  match op with
  | .create name isShell =>
    rw [applyOp, sessionNames_create]
    rw [List.nodup_append]
    refine ⟨h, List.nodup_singleton _, ?_⟩
    intro a ha hb
    simp only [List.mem_singleton] at hb
    subst hb
    exact unique_name_not_mem (sessionNames st) _ ha
  | .close id =>
    rw [applyOp]
    simp only [close_session]
    have hsub : List.Sublist
        (List.map (fun p => p.2.name) (st.sessions.filter (fun p => ¬ p.1 = id)))
        (List.map (fun p => p.2.name) st.sessions) :=
      (List.filter_sublist _).map _
    exact h.sublist hsub

/-- Claim C2: live names are always pairwise distinct under any create and
close sequence; the probe is first-fit (the base verbatim when free,
otherwise the first free `base-n` with `n ≥ 2`, every smaller candidate
being taken); three unnamed shell sessions from an empty registry are
named `shell`, `shell-2`, `shell-3`. -/
theorem claim2_session_name_uniqueness :
    (∀ ops : List SessionOp, (sessionNames (runOps ops)).Nodup) ∧
    (∀ (taken : List String) (base : String), base ∉ taken →
      unique_name taken base = base) ∧
    (∀ (taken : List String) (base : String), base ∈ taken →
      ∃ n, 2 ≤ n ∧ unique_name taken base = nameCand base n ∧
        nameCand base n ∉ taken ∧
        ∀ m, 2 ≤ m → m < n → nameCand base m ∈ taken) ∧
    sessionNames (runOps
        [.create none true, .create none true, .create none true])
      = ["shell", "shell-2", "shell-3"] := by
  refine ⟨?_, ?_, ?_, ?_⟩
  · intro ops
    rw [runOps]
    induction ops using List.reverseRecOn with
    | nil => simp [sessionNames, AppState.empty]
    | append_singleton ops op ih =>
      rw [List.foldl_append, List.foldl_cons, List.foldl_nil]
      exact nodup_applyOp ih op
  · intro taken base hb
    rw [unique_name, if_neg hb]
  · intro taken base hb
    rw [unique_name, if_pos hb]
    have hfree := probeName_not_mem taken base 2
    obtain ⟨j, hj1, hj2, hj3, hj4⟩ := probeName_first_fit taken base (taken.length + 1) 2 hfree
    exact ⟨j, hj1, hj2, hj3, hj4⟩
  · rfl

/-- Witness for C2's probe clauses. -/
theorem claim2_session_name_witness :
    unique_name ["shell"] "agent" = "agent" ∧
    ∃ n, 2 ≤ n ∧ unique_name ["shell"] "shell" = nameCand "shell" n ∧
      nameCand "shell" n ∉ ["shell"] ∧
      ∀ m, 2 ≤ m → m < n → nameCand "shell" m ∈ ["shell"] :=
  ⟨claim2_session_name_uniqueness.2.1 ["shell"] "agent" (by decide),
   claim2_session_name_uniqueness.2.2.1 ["shell"] "shell" (by decide)⟩

end AgentsUI
